import Mathlib

/-!
Verification of the triangle-to-graph conversion core of
`landlab/graph/voronoi/voronoi.py` (`VoronoiGraph.__init__`).

The Python source delegates two steps to the compiled extension module
`landlab.graph.voronoi.ext.delaunay` (`remove_tris` and
`_setup_links_at_patch`), whose source is not part of the repository
checkout; those two operations are modelled here from the specification
(sections 4.1 and 4.2).  Everything else — the node-spacing predicate,
the skip conditions around filtering, the link-count formula and the
keyword defaults — is translated directly from the Python source.
-/

namespace Voronoi

/-- A patch (triangle): an ordered triple of node indices
(`delaunay.simplices` row, `nodes_at_patch`). -/
abbrev Patch := Nat × Nat × Nat

/-- An adjacency row (`delaunay.neighbors` row, `neighbors_at_patch`):
three neighbor patch indices with `-1` as the no-neighbor sentinel. -/
abbrev ARow := Int × Int × Int

/-- Component of a triple selected by a slot index. -/
def tget {α : Type} (t : α × α × α) : Fin 3 → α
  | ⟨0, _⟩ => t.1
  | ⟨1, _⟩ => t.2.1
  | ⟨2, _⟩ => t.2.2

/-- Map a function over a triple's components. -/
def tmap {α β : Type} (f : α → β) (t : α × α × α) : β × β × β :=
  (f t.1, f t.2.1, f t.2.2)

/-- Row `i` of the patch table (out-of-range reads return a junk row;
all theorems restrict to in-range indices). -/
def patchAt (patches : List Patch) (i : Nat) : Patch :=
  patches.getD i (0, 0, 0)

/-- Row `i` of the adjacency table. -/
def adjAt (adj : List ARow) (i : Nat) : ARow :=
  adj.getD i (-1, -1, -1)

/-- Peak-to-peak of a patch's three node indices:
`np.ptp(delaunay.simplices, axis=1)` in the source. -/
def ptp3 (p : Patch) : Nat :=
  max p.1 (max p.2.1 p.2.2) - min p.1 (min p.2.1 p.2.2)

/-- Indices of the patches flagged for removal:
`np.where(max_node_dist > max_node_spacing)[0]` in the source. -/
def badPatches (patches : List Patch) (thr : Int) : List Nat :=
  (List.range patches.length).filter
    (fun i => decide (thr < (ptp3 (patchAt patches i) : Int)))

/-- Keyword arguments consumed by `VoronoiGraph.__init__` via
`kwds.pop(key, default)`; `none` models an absent key. -/
structure VoronoiKwds where
  xySort : Option Bool := none
  rotSort : Option Bool := none
  maxNodeSpacing : Option Int := none

/-- The two boolean sort policies forwarded to the `Graph` container. -/
structure ForwardedSorts where
  xySort : Bool
  rotSort : Bool

/-- `kwds.pop('xy_sort', True)` / `kwds.pop('rot_sort', True)` followed by
forwarding both values to `Graph.__init__`. -/
def voronoiForward (kwds : VoronoiKwds) : ForwardedSorts :=
  { xySort := kwds.xySort.getD true
    rotSort := kwds.rotSort.getD true }

/-! ### PatchFilter: removal and compaction (`remove_tris`) -/

/-- Old indices of the surviving patches, in their original relative order;
the compaction removes the rows listed in `bad`. -/
def survivors (P : Nat) (bad : List Nat) : List Nat :=
  (List.range P).filter (fun u => decide (u ∉ bad))

/-- The old-to-new index translation of the compaction: the new index of a
surviving old index `v` is the number of survivors strictly below `v`. -/
def newIdx (bad : List Nat) (v : Nat) : Nat :=
  (survivors v bad).length

/-- Step 1 of removal: an adjacency entry pointing at a removed patch is
rewritten to the no-neighbor sentinel. -/
def sentinelOut (bad : List Nat) (n : Int) : Int :=
  if 0 ≤ n ∧ n.toNat ∈ bad then -1 else n

/-- Step 3 of removal: a surviving non-sentinel adjacency entry is remapped
through the old-to-new index translation. -/
def remap (bad : List Nat) (n : Int) : Int :=
  if 0 ≤ n then Int.ofNat (newIdx bad n.toNat) else n

/-- Modelled from the spec: `remove_tris` of the compiled extension
`landlab.graph.voronoi.ext.delaunay` is absent from the source tree.
Following spec section 4.1: (1) adjacency slots naming a removed patch become
the sentinel; (2) the violating rows are removed from both tables, surviving
rows keeping their relative order; (3) surviving non-sentinel adjacency
values are remapped through the old-to-new index translation. -/
def removeTris (patches : List Patch) (adj : List ARow) (bad : List Nat) :
    List Patch × List ARow :=
  let adj1 := adj.map (tmap (sentinelOut bad))
  let keep := survivors patches.length bad
  (keep.map (patchAt patches),
   keep.map (fun i => tmap (remap bad) (adjAt adj1 i)))

/-- The filtering stage of `VoronoiGraph.__init__`: skipped entirely when
`max_node_spacing` is absent, and a no-op when no patch is flagged
(`if max_node_spacing is not None: ... if len(bad_patches) > 0: ...`). -/
def filterStep (patches : List Patch) (adj : List ARow) (mns : Option Int) :
    List Patch × List ARow :=
  match mns with
  | none => (patches, adj)
  | some thr =>
    let bad := badPatches patches thr
    if 0 < bad.length then removeTris patches adj bad else (patches, adj)

/-! ### LinkIndexer (`_setup_links_at_patch`) -/

/-- `np.count_nonzero(neighbors_at_patch > -1)`: the number of non-sentinel
adjacency entries. -/
def nShared (adj : List ARow) : Nat :=
  (adj.map (fun a =>
    (if (-1 : Int) < a.1 then 1 else 0) +
    (if (-1 : Int) < a.2.1 then 1 else 0) +
    (if (-1 : Int) < a.2.2 then 1 else 0))).sum

/-- `n_links = 3 * n_patches - n_shared_links // 2`. -/
def nLinksPre (patches : List Patch) (adj : List ARow) : Nat :=
  3 * patches.length - nShared adj / 2

/-- Endpoints of the edge of a patch opposite vertex `k`: the patch's other
two vertices, taken in cyclic order. -/
def edgeOfSlot (p : Patch) : Fin 3 → Nat × Nat
  | ⟨0, _⟩ => (p.2.1, p.2.2)
  | ⟨1, _⟩ => (p.2.2, p.1)
  | ⟨2, _⟩ => (p.1, p.2.1)

/-- First slot of an adjacency row holding a given value, if any. -/
def findSlot (row : ARow) (t : Int) : Option (Fin 3) :=
  if row.1 = t then some 0
  else if row.2.1 = t then some 1
  else if row.2.2 = t then some 2
  else none

/-- The slot `(i, k)` resolves by lookup (rather than by allocating a fresh
link) exactly when its neighbor entry `n` is a patch index already
processed: `0 ≤ n < i`. -/
def isLook (i : Nat) (n : Int) : Bool :=
  decide (0 ≤ n ∧ n < (i : Int))

/-- State of the indexing pass: links allocated so far (in allocation
order) and the completed `links_at_patch` rows. -/
structure BState where
  links : List (Nat × Nat)
  lap : List (Nat × Nat × Nat)

/-- Link id recorded by a lookup at patch `i` against an already-processed
neighbor `n`: the id stored at the slot of row `n` that names `i`.  A failed
reverse lookup (non-symmetric adjacency) records a junk id; such inputs are
rejected by the final link-count check. -/
def lookupId (adj : List ARow) (lap : List (Nat × Nat × Nat)) (i n : Nat) :
    Nat :=
  match findSlot (adjAt adj n) (Int.ofNat i) with
  | some k2 => tget (lap.getD n (0, 0, 0)) k2
  | none => 0

/-- Process one slot of patch `i`: either look the link up from the
lower-indexed neighbor, or allocate the next unused link id and append the
edge's endpoints to the link table. -/
def slotStep (adj : List ARow) (i : Nat) (p : Patch) (a : ARow) (k : Fin 3)
    (st : BState) : BState × Nat :=
  let n := tget a k
  if isLook i n then
    (st, lookupId adj st.lap i n.toNat)
  else
    ({ st with links := st.links ++ [edgeOfSlot p k] }, st.links.length)

/-- Process patch `i`: assign its three slots in order and append the
completed `links_at_patch` row. -/
def patchStep (patches : List Patch) (adj : List ARow) (st : BState)
    (i : Nat) : BState :=
  let p := patchAt patches i
  let a := adjAt adj i
  let s0 := slotStep adj i p a 0 st
  let s1 := slotStep adj i p a 1 s0.1
  let s2 := slotStep adj i p a 2 s1.1
  { s2.1 with lap := s2.1.lap ++ [(s0.2, s1.2, s2.2)] }

/-- The indexing pass over the first `m` patches, in increasing index
order. -/
def buildAux (patches : List Patch) (adj : List ARow) (m : Nat) : BState :=
  (List.range m).foldl (patchStep patches adj) ⟨[], []⟩

/-- Failure mode of the indexing pass. -/
inductive BuildError : Type
  | inconsistentAdjacency : BuildError
deriving DecidableEq, Repr

/-- Modelled from the spec: `_setup_links_at_patch` of the compiled
extension `landlab.graph.voronoi.ext.delaunay` is absent from the source
tree.  Following spec section 4.2: patches are processed in increasing
index order with the lower-index-wins tie-break; the pass fails with an
inconsistency error when the number of links actually assigned diverges
from the precomputed count `3P - shared // 2`. -/
def build (patches : List Patch) (adj : List ARow) :
    Except BuildError (List (Nat × Nat) × List (Nat × Nat × Nat)) :=
  let st := buildAux patches adj patches.length
  if st.links.length = nLinksPre patches adj then .ok (st.links, st.lap)
  else .error .inconsistentAdjacency

/-- The post-triangulation part of `VoronoiGraph.__init__`: optional
filtering followed by link indexing; returns the final patch, adjacency,
link and links-at-patch tables. -/
def voronoiPipeline (patches : List Patch) (adj : List ARow)
    (mns : Option Int) :
    Except BuildError
      (List Patch × List ARow × List (Nat × Nat) × List (Nat × Nat × Nat)) :=
  let fp := filterStep patches adj mns
  match build fp.1 fp.2 with
  | .ok out => .ok (fp.1, fp.2, out.1, out.2)
  | .error e => .error e

/-! ### Derived quantities of the indexing pass -/

/-- The slot `(i, k)` is primary: it allocates a fresh link (no neighbor,
or a neighbor not yet processed). -/
def primB (adj : List ARow) (i : Nat) (k : Fin 3) : Bool :=
  !(isLook i (tget (adjAt adj i) k))

/-- 1 when the slot is primary, otherwise 0. -/
def primCnt (adj : List ARow) (i : Nat) (k : Fin 3) : Nat :=
  if primB adj i k then 1 else 0

/-- Number of primary slots of patch `i` preceding slot `k`. -/
def primOff (adj : List ARow) (i : Nat) : Fin 3 → Nat
  | ⟨0, _⟩ => 0
  | ⟨1, _⟩ => primCnt adj i 0
  | ⟨2, _⟩ => primCnt adj i 0 + primCnt adj i 1

/-- Number of primary slots of patch `i`. -/
def primRowCount (adj : List ARow) (i : Nat) : Nat :=
  primCnt adj i 0 + primCnt adj i 1 + primCnt adj i 2

/-- Number of links assigned while processing the first `m` patches. -/
def allocCount (adj : List ARow) (m : Nat) : Nat :=
  ((List.range m).map (primRowCount adj)).sum

/-- The link-table entries contributed by patch `i`: the edges of its
primary slots, in slot order. -/
def newEdges (patches : List Patch) (adj : List ARow) (i : Nat) :
    List (Nat × Nat) :=
  (if primB adj i 0 then [edgeOfSlot (patchAt patches i) 0] else []) ++
    ((if primB adj i 1 then [edgeOfSlot (patchAt patches i) 1] else []) ++
      (if primB adj i 2 then [edgeOfSlot (patchAt patches i) 2] else []))

/-- The link id assigned to slot `k` of patch `i`, given the state reached
before patch `i`. -/
def slotVal (adj : List ARow) (st : BState) (i : Nat) (k : Fin 3) : Nat :=
  if primB adj i k then st.links.length + primOff adj i k
  else lookupId adj st.lap i (tget (adjAt adj i) k).toNat

/-- The `links_at_patch` row of patch `i`, given the state reached before
patch `i`. -/
def newRow (adj : List ARow) (st : BState) (i : Nat) : Nat × Nat × Nat :=
  (slotVal adj st i 0, slotVal adj st i 1, slotVal adj st i 2)

/-- Two endpoint pairs denote the same unordered node pair. -/
def sameUnord (e f : Nat × Nat) : Prop :=
  e = f ∨ (e.1 = f.2 ∧ e.2 = f.1)

instance (e f : Nat × Nat) : Decidable (sameUnord e f) := by
  unfold sameUnord; infer_instance

/-- The input invariants of a triangulation's adjacency table
(spec section 3): the tables are parallel; every non-sentinel entry is a
valid patch index other than the row's own; the neighbor relation is
symmetric; and a row's non-sentinel entries are pairwise distinct. -/
def ValidAdj (patches : List Patch) (adj : List ARow) : Prop :=
  adj.length = patches.length ∧
  (∀ i < patches.length, ∀ k : Fin 3,
    tget (adjAt adj i) k = -1 ∨
      (0 ≤ tget (adjAt adj i) k ∧
        (tget (adjAt adj i) k).toNat < patches.length ∧
        (tget (adjAt adj i) k).toNat ≠ i)) ∧
  (∀ i < patches.length, ∀ k : Fin 3, 0 ≤ tget (adjAt adj i) k →
    ∃ k2 : Fin 3,
      tget (adjAt adj (tget (adjAt adj i) k).toNat) k2 = Int.ofNat i) ∧
  (∀ i < patches.length, ∀ k k2 : Fin 3, k ≠ k2 →
    0 ≤ tget (adjAt adj i) k →
    tget (adjAt adj i) k ≠ tget (adjAt adj i) k2)

instance (patches : List Patch) (adj : List ARow) :
    Decidable (ValidAdj patches adj) := by
  unfold ValidAdj
  infer_instance

/-- All slot positions of a table of `P` patches. -/
def slotFinset (P : Nat) : Finset (Nat × Fin 3) :=
  Finset.range P ×ˢ (Finset.univ : Finset (Fin 3))

/-- Slots whose neighbor entry is an already-processed patch (the lookup
slots). -/
def belowSet (adj : List ARow) (P : Nat) : Finset (Nat × Fin 3) :=
  (slotFinset P).filter
    (fun x => 0 ≤ tget (adjAt adj x.1) x.2 ∧
      tget (adjAt adj x.1) x.2 < (x.1 : Int))

/-- Slots whose neighbor entry is a patch not yet processed. -/
def aboveSet (adj : List ARow) (P : Nat) : Finset (Nat × Fin 3) :=
  (slotFinset P).filter
    (fun x => 0 ≤ tget (adjAt adj x.1) x.2 ∧
      ¬ tget (adjAt adj x.1) x.2 < (x.1 : Int))

/-- The reverse of a non-sentinel slot `(i, k)` with entry `n`: the slot of
row `n` that names `i`. -/
def revSlot (adj : List ARow) (x : Nat × Fin 3) : Nat × Fin 3 :=
  ((tget (adjAt adj x.1) x.2).toNat,
    (findSlot (adjAt adj (tget (adjAt adj x.1) x.2).toNat)
      (Int.ofNat x.1)).getD 0)

/-! ### Basic lemmas on triples and `findSlot` -/

theorem tget_tmap {α β : Type} (f : α → β) (t : α × α × α) (k : Fin 3) :
    tget (tmap f t) k = f (tget t k) := by
  rcases k with ⟨k, hk⟩
  match k, hk with
  | 0, _ => rfl
  | 1, _ => rfl
  | 2, _ => rfl

theorem tget_newRow (adj : List ARow) (st : BState) (i : Nat) (k : Fin 3) :
    tget (newRow adj st i) k = slotVal adj st i k := by
  rcases k with ⟨k, hk⟩
  match k, hk with
  | 0, _ => rfl
  | 1, _ => rfl
  | 2, _ => rfl

theorem ofNat_cast (n : Nat) : Int.ofNat n = (n : Int) := rfl

theorem tget_zero {α : Type} (t : α × α × α) : tget t 0 = t.1 := rfl

theorem tget_one {α : Type} (t : α × α × α) : tget t 1 = t.2.1 := rfl

theorem tget_two {α : Type} (t : α × α × α) : tget t 2 = t.2.2 := rfl

theorem findSlot_some (row : ARow) (t : Int) (k : Fin 3)
    (h : findSlot row t = some k) : tget row k = t := by
  unfold findSlot at h
  split_ifs at h with h1 h2 h3
  · cases h; exact h1
  · cases h; exact h2
  · cases h; exact h3

theorem findSlot_eq (row : ARow) (t : Int) (k : Fin 3)
    (hk : tget row k = t)
    (huniq : ∀ k2 : Fin 3, k2 ≠ k → tget row k2 ≠ t) :
    findSlot row t = some k := by
  unfold findSlot
  fin_cases k
  · have h1 : row.1 = t := hk
    rw [if_pos h1]
    rfl
  · have h1 : row.1 ≠ t := huniq 0 (by decide)
    have h2 : row.2.1 = t := hk
    rw [if_neg h1, if_pos h2]
    rfl
  · have h1 : row.1 ≠ t := huniq 0 (by decide)
    have h2 : row.2.1 ≠ t := huniq 1 (by decide)
    have h3 : row.2.2 = t := hk
    rw [if_neg h1, if_neg h2, if_pos h3]
    rfl

/-! ### Structure of the indexing pass -/

theorem buildAux_zero (patches : List Patch) (adj : List ARow) :
    buildAux patches adj 0 = ⟨[], []⟩ := rfl

theorem buildAux_succ (patches : List Patch) (adj : List ARow) (m : Nat) :
    buildAux patches adj (m + 1) =
      patchStep patches adj (buildAux patches adj m) m := by
  unfold buildAux
  rw [List.range_succ, List.foldl_append]
  rfl

theorem patchStep_eq (patches : List Patch) (adj : List ARow) (st : BState)
    (i : Nat) :
    patchStep patches adj st i =
      ⟨st.links ++ newEdges patches adj i,
        st.lap ++ [newRow adj st i]⟩ := by
  by_cases h0 : isLook i (tget (adjAt adj i) 0) <;>
    by_cases h1 : isLook i (tget (adjAt adj i) 1) <;>
      by_cases h2 : isLook i (tget (adjAt adj i) 2) <;>
        simp [patchStep, slotStep, newEdges, newRow, slotVal, primB,
          primOff, primCnt, h0, h1, h2, List.append_assoc]

theorem newEdges_length (patches : List Patch) (adj : List ARow) (i : Nat) :
    (newEdges patches adj i).length = primRowCount adj i := by
  unfold newEdges primRowCount primCnt
  by_cases h0 : primB adj i 0 <;>
    by_cases h1 : primB adj i 1 <;>
      by_cases h2 : primB adj i 2 <;>
        simp [h0, h1, h2]

theorem allocCount_zero (adj : List ARow) : allocCount adj 0 = 0 := rfl

theorem allocCount_succ (adj : List ARow) (m : Nat) :
    allocCount adj (m + 1) = allocCount adj m + primRowCount adj m := by
  unfold allocCount
  rw [List.range_succ, List.map_append, List.sum_append]
  simp

theorem allocCount_mono (adj : List ARow) {m m2 : Nat} (h : m ≤ m2) :
    allocCount adj m ≤ allocCount adj m2 := by
  induction h with
  | refl => exact Nat.le_refl _
  | step h2 ih =>
    rw [allocCount_succ]
    omega

theorem lap_length (patches : List Patch) (adj : List ARow) (m : Nat) :
    (buildAux patches adj m).lap.length = m := by
  induction m with
  | zero => rfl
  | succ m ih =>
    rw [buildAux_succ, patchStep_eq]
    simp [ih]

theorem links_length (patches : List Patch) (adj : List ARow) (m : Nat) :
    (buildAux patches adj m).links.length = allocCount adj m := by
  induction m with
  | zero => rfl
  | succ m ih =>
    rw [buildAux_succ, patchStep_eq, allocCount_succ]
    simp [ih, newEdges_length]

theorem lap_stable (patches : List Patch) (adj : List ARow) {m m2 i : Nat}
    (hle : m ≤ m2) (hi : i < m) :
    (buildAux patches adj m2).lap.getD i (0, 0, 0) =
      (buildAux patches adj m).lap.getD i (0, 0, 0) := by
  induction hle with
  | refl => rfl
  | step h2 ih =>
    rename_i n
    have h3 : m ≤ n := h2
    rw [buildAux_succ, patchStep_eq]
    have hi2 : i < (buildAux patches adj n).lap.length := by
      rw [lap_length]; omega
    rw [List.getD_append _ _ _ _ hi2]
    exact ih

theorem links_stable (patches : List Patch) (adj : List ARow)
    {m m2 L : Nat} (hle : m ≤ m2) (hL : L < allocCount adj m) :
    (buildAux patches adj m2).links.getD L (0, 0) =
      (buildAux patches adj m).links.getD L (0, 0) := by
  induction hle with
  | refl => rfl
  | step h2 ih =>
    rename_i n
    have h3 : m ≤ n := h2
    rw [buildAux_succ, patchStep_eq]
    have hL2 : L < (buildAux patches adj n).links.length := by
      rw [links_length]
      exact Nat.lt_of_lt_of_le hL (allocCount_mono adj h3)
    rw [List.getD_append _ _ _ _ hL2]
    exact ih

theorem lap_row (patches : List Patch) (adj : List ARow) (i : Nat) :
    (buildAux patches adj (i + 1)).lap.getD i (0, 0, 0) =
      newRow adj (buildAux patches adj i) i := by
  rw [buildAux_succ, patchStep_eq]
  have h : (buildAux patches adj i).lap.length = i := lap_length _ _ _
  rw [List.getD_append_right _ _ _ _ (by omega)]
  simp [h]

theorem lap_row_final (patches : List Patch) (adj : List ARow) {m i : Nat}
    (hi : i < m) :
    (buildAux patches adj m).lap.getD i (0, 0, 0) =
      newRow adj (buildAux patches adj i) i := by
  rw [lap_stable patches adj (Nat.succ_le_of_lt hi) (Nat.lt_succ_self i)]
  exact lap_row patches adj i

/-! ### Characterization of the two slot cases -/

theorem primOff_zero (adj : List ARow) (i : Nat) : primOff adj i 0 = 0 := rfl

theorem primOff_one (adj : List ARow) (i : Nat) :
    primOff adj i 1 = primCnt adj i 0 := rfl

theorem primOff_two (adj : List ARow) (i : Nat) :
    primOff adj i 2 = primCnt adj i 0 + primCnt adj i 1 := rfl

theorem edgeOfSlot_zero (p : Patch) : edgeOfSlot p 0 = (p.2.1, p.2.2) := rfl

theorem edgeOfSlot_one (p : Patch) : edgeOfSlot p 1 = (p.2.2, p.1) := rfl

theorem edgeOfSlot_two (p : Patch) : edgeOfSlot p 2 = (p.1, p.2.1) := rfl

theorem primCnt_eq_one (adj : List ARow) (i : Nat) (k : Fin 3)
    (hp : primB adj i k = true) : primCnt adj i k = 1 := by
  simp [primCnt, hp]

theorem primOff_lt (adj : List ARow) (i : Nat) (k : Fin 3)
    (hp : primB adj i k = true) :
    primOff adj i k < primRowCount adj i := by
  fin_cases k
  · show primOff adj i 0 < primRowCount adj i
    have h := primCnt_eq_one adj i 0 hp
    rw [primOff_zero]
    unfold primRowCount
    omega
  · show primOff adj i 1 < primRowCount adj i
    have h := primCnt_eq_one adj i 1 hp
    rw [primOff_one]
    unfold primRowCount
    omega
  · show primOff adj i 2 < primRowCount adj i
    have h := primCnt_eq_one adj i 2 hp
    rw [primOff_two]
    unfold primRowCount
    omega

theorem newEdges_getD (patches : List Patch) (adj : List ARow) (i : Nat)
    (k : Fin 3) (hp : primB adj i k = true) :
    (newEdges patches adj i).getD (primOff adj i k) (0, 0) =
      edgeOfSlot (patchAt patches i) k := by
  fin_cases k
  · show (newEdges patches adj i).getD (primOff adj i 0) (0, 0) =
      edgeOfSlot (patchAt patches i) 0
    have hp0 : primB adj i 0 = true := hp
    simp [newEdges, primOff_zero, hp0]
  · show (newEdges patches adj i).getD (primOff adj i 1) (0, 0) =
      edgeOfSlot (patchAt patches i) 1
    have hp1 : primB adj i 1 = true := hp
    rw [primOff_one]
    by_cases h0 : primB adj i 0 <;>
      simp [newEdges, primCnt, hp1, h0]
  · show (newEdges patches adj i).getD (primOff adj i 2) (0, 0) =
      edgeOfSlot (patchAt patches i) 2
    have hp2 : primB adj i 2 = true := hp
    rw [primOff_two]
    by_cases h0 : primB adj i 0 <;>
      by_cases h1 : primB adj i 1 <;>
        simp [newEdges, primCnt, hp2, h0, h1]

theorem slot_primary (patches : List Patch) (adj : List ARow) (i : Nat)
    (k : Fin 3) (hp : primB adj i k = true) :
    tget (newRow adj (buildAux patches adj i) i) k =
      allocCount adj i + primOff adj i k ∧
    (buildAux patches adj (i + 1)).links.getD
      (allocCount adj i + primOff adj i k) (0, 0) =
      edgeOfSlot (patchAt patches i) k := by
  have hlen : (buildAux patches adj i).links.length = allocCount adj i :=
    links_length _ _ _
  constructor
  · rw [tget_newRow]
    unfold slotVal
    rw [if_pos hp, hlen]
  · rw [buildAux_succ, patchStep_eq]
    rw [List.getD_append_right _ _ _ _ (by omega)]
    have hidx : allocCount adj i + primOff adj i k -
        (buildAux patches adj i).links.length = primOff adj i k := by
      rw [hlen]; omega
    rw [hidx]
    exact newEdges_getD patches adj i k hp

theorem slot_secondary (patches : List Patch) (adj : List ARow) (i : Nat)
    (k : Fin 3) (hp : primB adj i k = false) :
    tget (newRow adj (buildAux patches adj i) i) k =
      lookupId adj (buildAux patches adj i).lap i
        (tget (adjAt adj i) k).toNat := by
  rw [tget_newRow]
  unfold slotVal
  rw [if_neg (by simp [hp])]

theorem lookupId_eq (adj : List ARow) (lap : List (Nat × Nat × Nat))
    (i n : Nat) (k : Fin 3)
    (hk : tget (adjAt adj n) k = Int.ofNat i)
    (huniq : ∀ k2 : Fin 3, k2 ≠ k → tget (adjAt adj n) k2 ≠ Int.ofNat i) :
    lookupId adj lap i n = tget (lap.getD n (0, 0, 0)) k := by
  unfold lookupId
  rw [findSlot_eq _ _ _ hk huniq]

theorem primB_iff (adj : List ARow) (i : Nat) (k : Fin 3) :
    primB adj i k = true ↔
      ¬ (0 ≤ tget (adjAt adj i) k ∧ tget (adjAt adj i) k < (i : Int)) := by
  simp only [primB, isLook, Bool.not_eq_true']
  rw [decide_eq_false_iff_not]

theorem primB_false_iff (adj : List ARow) (i : Nat) (k : Fin 3) :
    primB adj i k = false ↔
      0 ≤ tget (adjAt adj i) k ∧ tget (adjAt adj i) k < (i : Int) := by
  simp only [primB, isLook, Bool.not_eq_false']
  rw [decide_eq_true_eq]

/-! ### Counting links -/

theorem list_range_map_sum (f : Nat → Nat) (m : Nat) :
    ((List.range m).map f).sum = ∑ x ∈ Finset.range m, f x := by
  induction m with
  | zero => rfl
  | succ m ih =>
    rw [List.range_succ, List.map_append, List.sum_append,
      Finset.sum_range_succ, ih]
    simp

theorem map_sum_getD (l : List ARow) (f : ARow → Nat) :
    (l.map f).sum =
      ∑ i ∈ Finset.range l.length, f (l.getD i (-1, -1, -1)) := by
  induction l with
  | nil => rfl
  | cons a t ih =>
    rw [List.map_cons, List.sum_cons, List.length_cons,
      Finset.sum_range_succ']
    simp only [List.getD_cons_succ, List.getD_cons_zero]
    rw [ih]
    omega

theorem mem_slotFinset (P : Nat) (x : Nat × Fin 3) :
    x ∈ slotFinset P ↔ x.1 < P := by
  unfold slotFinset
  simp [Finset.mem_product]

theorem slotFinset_card (P : Nat) : (slotFinset P).card = 3 * P := by
  unfold slotFinset
  rw [Finset.card_product]
  simp [Finset.card_univ, Nat.mul_comm]

theorem nShared_eq_card (adj : List ARow) :
    nShared adj = ((slotFinset adj.length).filter
      (fun x => 0 ≤ tget (adjAt adj x.1) x.2)).card := by
  unfold nShared
  rw [map_sum_getD, Finset.card_filter]
  unfold slotFinset
  rw [Finset.sum_product]
  apply Finset.sum_congr rfl
  intro i _
  rw [Fin.sum_univ_three]
  have hc : ∀ z : Int, ((-1 : Int) < z) ↔ (0 ≤ z) := fun z => by omega
  simp [adjAt, tget_zero, tget_one, tget_two, hc]

theorem allocCount_card (adj : List ARow) (P : Nat) :
    allocCount adj P = ((slotFinset P).filter
      (fun x => primB adj x.1 x.2 = true)).card := by
  rw [Finset.card_filter]
  unfold slotFinset
  rw [Finset.sum_product]
  unfold allocCount
  rw [list_range_map_sum]
  apply Finset.sum_congr rfl
  intro i _
  rw [Fin.sum_univ_three]
  unfold primRowCount primCnt
  simp

theorem allocCount_formula (adj : List ARow) (P : Nat) :
    allocCount adj P = 3 * P - (belowSet adj P).card ∧
      (belowSet adj P).card ≤ 3 * P := by
  have hsplit : (belowSet adj P).card +
      ((slotFinset P).filter (fun x =>
        ¬ (0 ≤ tget (adjAt adj x.1) x.2 ∧
          tget (adjAt adj x.1) x.2 < (x.1 : Int)))).card =
      (slotFinset P).card := by
    unfold belowSet
    exact Finset.filter_card_add_filter_neg_card_eq_card _
  have hneg : allocCount adj P = ((slotFinset P).filter (fun x =>
      ¬ (0 ≤ tget (adjAt adj x.1) x.2 ∧
        tget (adjAt adj x.1) x.2 < (x.1 : Int)))).card := by
    rw [allocCount_card]
    congr 1
    apply Finset.filter_congr
    intro x _
    rw [primB_iff]
  rw [slotFinset_card] at hsplit
  constructor
  · omega
  · omega

theorem below_union_above (adj : List ARow) (P : Nat) :
    belowSet adj P ∪ aboveSet adj P =
      (slotFinset P).filter (fun x => 0 ≤ tget (adjAt adj x.1) x.2) := by
  ext x
  simp only [belowSet, aboveSet, Finset.mem_union, Finset.mem_filter]
  tauto

theorem below_disjoint_above (adj : List ARow) (P : Nat) :
    Disjoint (belowSet adj P) (aboveSet adj P) := by
  rw [Finset.disjoint_left]
  intro x hx hx2
  simp only [belowSet, aboveSet, Finset.mem_filter] at hx hx2
  exact absurd hx.2.2 hx2.2.2

theorem valid_rev (patches : List Patch) (adj : List ARow)
    (hv : ValidAdj patches adj) {x : Nat × Fin 3}
    (hx1 : x.1 < patches.length) (hx0 : 0 ≤ tget (adjAt adj x.1) x.2) :
    (revSlot adj x).1 < patches.length ∧
    (revSlot adj x).1 ≠ x.1 ∧
    tget (adjAt adj (revSlot adj x).1) (revSlot adj x).2 = Int.ofNat x.1 ∧
    revSlot adj (revSlot adj x) = x := by
  obtain ⟨hlen, hwf, hsym, hdist⟩ := hv
  rcases hwf x.1 hx1 x.2 with hsent | ⟨_, hlt, hne⟩
  · rw [hsent] at hx0
    exact absurd hx0 (by decide)
  · obtain ⟨k2, hk2⟩ := hsym x.1 hx1 x.2 hx0
    have huniq : ∀ k3 : Fin 3, k3 ≠ k2 →
        tget (adjAt adj (tget (adjAt adj x.1) x.2).toNat) k3 ≠
          Int.ofNat x.1 := by
      intro k3 hne3 hcontra
      have hd := hdist (tget (adjAt adj x.1) x.2).toNat hlt k2 k3
        (fun h => hne3 h.symm) (by rw [hk2]; exact Int.ofNat_nonneg _)
      rw [hk2, hcontra] at hd
      exact hd rfl
    have hfind : findSlot (adjAt adj (tget (adjAt adj x.1) x.2).toNat)
        (Int.ofNat x.1) = some k2 := findSlot_eq _ _ _ hk2 huniq
    have hxeq : revSlot adj x =
        ((tget (adjAt adj x.1) x.2).toNat, k2) := by
      unfold revSlot
      rw [hfind]
      rfl
    refine ⟨by rw [hxeq]; exact hlt, by rw [hxeq]; exact hne, ?_, ?_⟩
    · rw [hxeq]
      exact hk2
    · have huniq2 : ∀ k3 : Fin 3, k3 ≠ x.2 →
          tget (adjAt adj x.1) k3 ≠ tget (adjAt adj x.1) x.2 := by
        intro k3 hne3 hcontra
        exact hdist x.1 hx1 x.2 k3 (fun h => hne3 h.symm) hx0 hcontra.symm
      have hfind2 : findSlot (adjAt adj x.1) (tget (adjAt adj x.1) x.2) =
          some x.2 := findSlot_eq _ _ _ rfl huniq2
      rw [hxeq]
      show ((tget (adjAt adj (tget (adjAt adj x.1) x.2).toNat) k2).toNat,
        (findSlot (adjAt adj
          (tget (adjAt adj (tget (adjAt adj x.1) x.2).toNat) k2).toNat)
          (Int.ofNat (tget (adjAt adj x.1) x.2).toNat)).getD 0) = x
      rw [hk2]
      have h3 : (Int.ofNat x.1).toNat = x.1 := rfl
      rw [h3]
      have hent : Int.ofNat (tget (adjAt adj x.1) x.2).toNat =
          tget (adjAt adj x.1) x.2 := by
        rw [ofNat_cast]
        omega
      rw [hent, hfind2]
      rfl

theorem below_card_eq_above (patches : List Patch) (adj : List ARow)
    (hv : ValidAdj patches adj) :
    (belowSet adj patches.length).card =
      (aboveSet adj patches.length).card := by
  apply Finset.card_nbij' (revSlot adj) (revSlot adj)
  · intro a ha
    simp only [belowSet, Finset.mem_filter, mem_slotFinset] at ha
    obtain ⟨ha1, ha0, halt⟩ := ha
    obtain ⟨h1, h2, h3, h4⟩ := valid_rev patches adj hv ha1 ha0
    simp only [aboveSet, Finset.mem_filter, mem_slotFinset]
    refine ⟨h1, ?_, ?_⟩
    · rw [h3]
      exact Int.ofNat_nonneg _
    · rw [h3, ofNat_cast]
      have h5 : (revSlot adj a).1 = (tget (adjAt adj a.1) a.2).toNat := rfl
      omega
  · intro a ha
    simp only [aboveSet, Finset.mem_filter, mem_slotFinset] at ha
    obtain ⟨ha1, ha0, hage⟩ := ha
    obtain ⟨h1, h2, h3, h4⟩ := valid_rev patches adj hv ha1 ha0
    simp only [belowSet, Finset.mem_filter, mem_slotFinset]
    refine ⟨h1, ?_, ?_⟩
    · rw [h3]
      exact Int.ofNat_nonneg _
    · rw [h3, ofNat_cast]
      have h5 : (revSlot adj a).1 = (tget (adjAt adj a.1) a.2).toNat := rfl
      omega
  · intro a ha
    simp only [belowSet, Finset.mem_filter, mem_slotFinset] at ha
    exact (valid_rev patches adj hv ha.1 ha.2.1).2.2.2
  · intro a ha
    simp only [aboveSet, Finset.mem_filter, mem_slotFinset] at ha
    exact (valid_rev patches adj hv ha.1 ha.2.1).2.2.2

theorem nShared_even_formula (patches : List Patch) (adj : List ARow)
    (hv : ValidAdj patches adj) :
    nShared adj = 2 * (belowSet adj patches.length).card := by
  have hlen := hv.1
  rw [nShared_eq_card, hlen, ← below_union_above,
    Finset.card_union_of_disjoint (below_disjoint_above adj _),
    below_card_eq_above patches adj hv]
  omega

theorem links_count_of_valid (patches : List Patch) (adj : List ARow)
    (hv : ValidAdj patches adj) :
    (buildAux patches adj patches.length).links.length =
      nLinksPre patches adj := by
  rw [links_length]
  obtain ⟨hform, hle⟩ := allocCount_formula adj patches.length
  rw [hform]
  unfold nLinksPre
  rw [nShared_even_formula patches adj hv]
  omega

theorem build_ok_of_valid (patches : List Patch) (adj : List ARow)
    (hv : ValidAdj patches adj) :
    build patches adj = Except.ok
      ((buildAux patches adj patches.length).links,
        (buildAux patches adj patches.length).lap) := by
  have h := links_count_of_valid patches adj hv
  simp only [build]
  rw [if_pos h]

theorem row_value_unique (patches : List Patch) (adj : List ARow)
    (hv : ValidAdj patches adj) {i : Nat} (hiP : i < patches.length)
    {k : Fin 3} (h0 : 0 ≤ tget (adjAt adj i) k) :
    ∀ k3 : Fin 3, k3 ≠ k → tget (adjAt adj i) k3 ≠ tget (adjAt adj i) k := by
  intro k3 hne hcontra
  exact hv.2.2.2 i hiP k k3 (fun h => hne h.symm) h0 hcontra.symm

theorem shared_link_of_adjacent (patches : List Patch) (adj : List ARow)
    (hv : ValidAdj patches adj) {i j : Nat} {k k2 : Fin 3}
    (hij : i < j) (hjP : j < patches.length)
    (hik : tget (adjAt adj i) k = Int.ofNat j)
    (hjk : tget (adjAt adj j) k2 = Int.ofNat i) :
    tget ((buildAux patches adj patches.length).lap.getD i (0, 0, 0)) k =
      allocCount adj i + primOff adj i k ∧
    tget ((buildAux patches adj patches.length).lap.getD j (0, 0, 0)) k2 =
      allocCount adj i + primOff adj i k ∧
    (buildAux patches adj patches.length).links.getD
      (allocCount adj i + primOff adj i k) (0, 0) =
      edgeOfSlot (patchAt patches i) k := by
  have hiP : i < patches.length := Nat.lt_trans hij hjP
  have hprim : primB adj i k = true := by
    rw [primB_iff, hik, ofNat_cast]
    intro hcon
    omega
  have hsec : primB adj j k2 = false := by
    rw [primB_false_iff, hjk, ofNat_cast]
    constructor
    · omega
    · omega
  obtain ⟨hslot_i, hlink⟩ := slot_primary patches adj i k hprim
  have hrow_i : (buildAux patches adj patches.length).lap.getD i (0, 0, 0) =
      newRow adj (buildAux patches adj i) i := lap_row_final patches adj hiP
  have hrow_j : (buildAux patches adj patches.length).lap.getD j (0, 0, 0) =
      newRow adj (buildAux patches adj j) j := lap_row_final patches adj hjP
  have hLlt : allocCount adj i + primOff adj i k < allocCount adj (i + 1) := by
    rw [allocCount_succ]
    have := primOff_lt adj i k hprim
    omega
  refine ⟨?_, ?_, ?_⟩
  · rw [hrow_i]
    exact hslot_i
  · rw [hrow_j, slot_secondary patches adj j k2 hsec]
    have htn : (tget (adjAt adj j) k2).toNat = i := by
      rw [hjk]
      rfl
    rw [htn]
    have h0i : 0 ≤ tget (adjAt adj i) k := by
      rw [hik]
      exact Int.ofNat_nonneg _
    have hlook := lookupId_eq adj (buildAux patches adj j).lap j i k
      (by rw [hik])
      (by
        intro k3 hne3 hcon
        exact row_value_unique patches adj hv hiP h0i k3 hne3
          (by rw [hcon, hik]))
    rw [hlook]
    have hstab : (buildAux patches adj j).lap.getD i (0, 0, 0) =
        (buildAux patches adj (i + 1)).lap.getD i (0, 0, 0) :=
      lap_stable patches adj (by omega) (Nat.lt_succ_self i)
    rw [hstab, lap_row]
    exact hslot_i
  · have hstab : (buildAux patches adj patches.length).links.getD
        (allocCount adj i + primOff adj i k) (0, 0) =
        (buildAux patches adj (i + 1)).links.getD
          (allocCount adj i + primOff adj i k) (0, 0) :=
      links_stable patches adj (by omega) hLlt
    rw [hstab]
    exact hlink

/-! ### No duplicate links -/

theorem sameUnord_symm {e f : Nat × Nat} (h : sameUnord e f) :
    sameUnord f e := by
  rcases h with h | ⟨h1, h2⟩
  · exact Or.inl h.symm
  · exact Or.inr ⟨h2.symm, h1.symm⟩

theorem mem_ite_singleton {c : Prop} [Decidable c] {x e : Nat × Nat}
    (h : e ∈ if c then [x] else []) : e = x ∧ c := by
  split at h
  · rw [List.mem_singleton] at h
    constructor <;> trivial
  · cases h

theorem mem_newEdges {patches : List Patch} {adj : List ARow} {i : Nat}
    {e : Nat × Nat} (h : e ∈ newEdges patches adj i) :
    ∃ k : Fin 3, primB adj i k = true ∧
      e = edgeOfSlot (patchAt patches i) k := by
  unfold newEdges at h
  rw [List.mem_append, List.mem_append] at h
  rcases h with h | h | h
  · obtain ⟨he, hc⟩ := mem_ite_singleton h
    exact ⟨0, hc, he⟩
  · obtain ⟨he, hc⟩ := mem_ite_singleton h
    exact ⟨1, hc, he⟩
  · obtain ⟨he, hc⟩ := mem_ite_singleton h
    exact ⟨2, hc, he⟩

theorem patch_edges_distinct {p : Patch}
    (hd : p.1 ≠ p.2.1 ∧ p.1 ≠ p.2.2 ∧ p.2.1 ≠ p.2.2)
    {k k2 : Fin 3} (hkk : k ≠ k2) :
    ¬ sameUnord (edgeOfSlot p k) (edgeOfSlot p k2) := by
  obtain ⟨h1, h2, h3⟩ := hd
  fin_cases k <;> fin_cases k2 <;>
    simp_all [sameUnord, Prod.ext_iff, edgeOfSlot_zero, edgeOfSlot_one,
      edgeOfSlot_two] <;>
      tauto

theorem newEdges_pairwise {patches : List Patch} {adj : List ARow} {i : Nat}
    (h : ∀ k k2 : Fin 3, k ≠ k2 →
      ¬ sameUnord (edgeOfSlot (patchAt patches i) k)
        (edgeOfSlot (patchAt patches i) k2)) :
    List.Pairwise (fun e f => ¬ sameUnord e f) (newEdges patches adj i) := by
  unfold newEdges
  rw [List.pairwise_append, List.pairwise_append]
  refine ⟨?_, ⟨?_, ?_, ?_⟩, ?_⟩
  · split <;> simp
  · split <;> simp
  · split <;> simp
  · intro a ha b hb
    have ha2 := (mem_ite_singleton ha).1
    have hb2 := (mem_ite_singleton hb).1
    rw [ha2, hb2]
    exact h 1 2 (by decide)
  · intro a ha b hb
    have ha2 := (mem_ite_singleton ha).1
    rw [List.mem_append] at hb
    rcases hb with hb | hb
    · have hb2 := (mem_ite_singleton hb).1
      rw [ha2, hb2]
      exact h 0 1 (by decide)
    · have hb2 := (mem_ite_singleton hb).1
      rw [ha2, hb2]
      exact h 0 2 (by decide)

theorem links_pairwise (patches : List Patch) (adj : List ARow)
    (hvert : ∀ i < patches.length,
      (patchAt patches i).1 ≠ (patchAt patches i).2.1 ∧
      (patchAt patches i).1 ≠ (patchAt patches i).2.2 ∧
      (patchAt patches i).2.1 ≠ (patchAt patches i).2.2)
    (hedge : ∀ i < patches.length, ∀ j < patches.length, i ≠ j →
      ∀ k k2 : Fin 3,
        sameUnord (edgeOfSlot (patchAt patches i) k)
          (edgeOfSlot (patchAt patches j) k2) →
        tget (adjAt adj i) k = Int.ofNat j)
    (m : Nat) (hm : m ≤ patches.length) :
    List.Pairwise (fun e f => ¬ sameUnord e f)
      (buildAux patches adj m).links ∧
    ∀ e ∈ (buildAux patches adj m).links, ∃ i, ∃ k : Fin 3,
      i < m ∧ primB adj i k = true ∧
        e = edgeOfSlot (patchAt patches i) k := by
  induction m with
  | zero =>
    constructor
    · exact List.Pairwise.nil
    · intro e he
      cases he
  | succ m ih =>
    obtain ⟨ihp, ihm⟩ := ih (by omega)
    have hmP : m < patches.length := by omega
    rw [buildAux_succ, patchStep_eq]
    constructor
    · rw [List.pairwise_append]
      refine ⟨ihp, newEdges_pairwise (fun k k2 hkk =>
        patch_edges_distinct (hvert m hmP) hkk), ?_⟩
      intro e he f hf
      obtain ⟨i, k, hi, hprim_i, hei⟩ := ihm e he
      obtain ⟨k2, hprim_m, hfm⟩ := mem_newEdges hf
      intro hcon
      rw [hei, hfm] at hcon
      have hadj := hedge m hmP i (by omega) (by omega) k2 k
        (sameUnord_symm hcon)
      rw [primB_iff] at hprim_m
      apply hprim_m
      rw [hadj, ofNat_cast]
      constructor
      · omega
      · omega
    · intro e he
      rw [List.mem_append] at he
      rcases he with he | he
      · obtain ⟨i, k, hi, hp, hee⟩ := ihm e he
        exact ⟨i, k, by omega, hp, hee⟩
      · obtain ⟨k, hp, hee⟩ := mem_newEdges he
        exact ⟨m, k, by omega, hp, hee⟩

theorem pairwise_getD (l : List (Nat × Nat))
    (hp : List.Pairwise (fun e f => ¬ sameUnord e f) l)
    {L1 L2 : Nat} (h1 : L1 < l.length) (h2 : L2 < l.length)
    (hne : L1 ≠ L2) :
    ¬ sameUnord (l.getD L1 (0, 0)) (l.getD L2 (0, 0)) := by
  rw [List.pairwise_iff_getElem] at hp
  rw [List.getD_eq_getElem _ _ h1, List.getD_eq_getElem _ _ h2]
  rcases Nat.lt_or_ge L1 L2 with h | h
  · exact hp L1 L2 h1 h2 h
  · have hlt : L2 < L1 := by omega
    intro hcon
    exact hp L2 L1 h2 h1 hlt (sameUnord_symm hcon)

/-! ### Compaction: survivors and the old-to-new index translation -/

theorem survivors_zero (bad : List Nat) : survivors 0 bad = [] := rfl

theorem survivors_succ (P : Nat) (bad : List Nat) :
    survivors (P + 1) bad =
      survivors P bad ++ if P ∉ bad then [P] else [] := by
  unfold survivors
  rw [List.range_succ, List.filter_append]
  congr 1
  by_cases h : P ∈ bad <;> simp [h]

theorem getD_map_lt {α β : Type} (f : α → β) (l : List α) (d : β) (d2 : α)
    {i : Nat} (hi : i < l.length) :
    (l.map f).getD i d = f (l.getD i d2) := by
  rw [List.getD_eq_getElem _ _ (by simpa using hi), List.getElem_map,
    List.getD_eq_getElem _ _ hi]

theorem tmap_tmap {α β γ : Type} (f : β → γ) (g : α → β) (t : α × α × α) :
    tmap f (tmap g t) = tmap (fun x => f (g x)) t := rfl

theorem survivors_getD_mem (P : Nat) (bad : List Nat) {i : Nat}
    (hi : i < (survivors P bad).length) :
    (survivors P bad).getD i 0 < P ∧ (survivors P bad).getD i 0 ∉ bad := by
  have hmem : (survivors P bad).getD i 0 ∈ survivors P bad := by
    rw [List.getD_eq_getElem _ _ hi]
    exact List.getElem_mem hi
  unfold survivors at hmem
  rw [List.mem_filter, List.mem_range] at hmem
  refine ⟨hmem.1, ?_⟩
  have h2 := hmem.2
  rwa [decide_eq_true_eq] at h2

theorem newIdx_survivors_getD (bad : List Nat) :
    ∀ P i, i < (survivors P bad).length →
      newIdx bad ((survivors P bad).getD i 0) = i := by
  intro P
  induction P with
  | zero =>
    intro i hi
    simp [survivors_zero] at hi
  | succ P ih =>
    intro i hi
    rw [survivors_succ] at hi ⊢
    by_cases hP : P ∈ bad
    · rw [if_neg (not_not_intro hP)] at hi ⊢
      rw [List.append_nil] at hi ⊢
      exact ih i hi
    · rw [if_pos hP] at hi ⊢
      rw [List.length_append, List.length_singleton] at hi
      rcases Nat.lt_or_ge i (survivors P bad).length with h | h
      · rw [List.getD_append _ _ _ _ h]
        exact ih i h
      · have heq : i = (survivors P bad).length := by omega
        subst heq
        rw [List.getD_append_right _ _ _ _ (Nat.le_refl _), Nat.sub_self]
        rfl

theorem survivors_getD_newIdx (bad : List Nat) :
    ∀ P v, v < P → v ∉ bad →
      newIdx bad v < (survivors P bad).length ∧
      (survivors P bad).getD (newIdx bad v) 0 = v := by
  intro P
  induction P with
  | zero =>
    intro v hv
    exact absurd hv (Nat.not_lt_zero v)
  | succ P ih =>
    intro v hv hnb
    rw [survivors_succ]
    rcases Nat.lt_or_ge v P with h | h
    · obtain ⟨h1, h2⟩ := ih v h hnb
      constructor
      · rw [List.length_append]
        omega
      · rw [List.getD_append _ _ _ _ h1]
        exact h2
    · have hvP : v = P := by omega
      subst hvP
      rw [if_pos hnb]
      have hidx : newIdx bad v = (survivors v bad).length := rfl
      constructor
      · rw [List.length_append, List.length_singleton]
        omega
      · rw [hidx, List.getD_append_right _ _ _ _ (Nat.le_refl _),
          Nat.sub_self]
        rfl

theorem filter_lt_succ_len (P : Nat) :
    ∀ bad : List Nat, bad.Nodup →
      (bad.filter (fun v => decide (v < P + 1))).length =
        (bad.filter (fun v => decide (v < P))).length +
          (if P ∈ bad then 1 else 0) := by
  intro bad
  induction bad with
  | nil =>
    intro _
    simp
  | cons a t ih =>
    intro hnd
    rw [List.nodup_cons] at hnd
    obtain ⟨hat, hts⟩ := hnd
    have iht := ih hts
    rw [List.filter_cons, List.filter_cons]
    have hmem : (P ∈ a :: t) ↔ (P = a ∨ P ∈ t) := List.mem_cons
    by_cases hlt : a < P
    · have h1 : a < P + 1 := by omega
      have haP : ¬ P = a := by omega
      rw [if_pos (decide_eq_true h1), if_pos (decide_eq_true hlt),
        List.length_cons, List.length_cons, iht]
      by_cases hPt : P ∈ t
      · rw [if_pos (hmem.mpr (Or.inr hPt)), if_pos hPt]
      · rw [if_neg (fun hc => (hmem.mp hc).elim haP hPt), if_neg hPt]
    · by_cases hEq : a = P
      · subst hEq
        have h1 : a < a + 1 := by omega
        rw [if_pos (decide_eq_true h1),
          if_neg (by rw [decide_eq_true_eq]; omega),
          List.length_cons, iht]
        rw [if_neg (fun hc => hat hc), if_pos (hmem.mpr (Or.inl rfl))]
      · have h1 : ¬ a < P + 1 := by omega
        rw [if_neg (by rw [decide_eq_true_eq]; exact h1),
          if_neg (by rw [decide_eq_true_eq]; exact hlt), iht]
        by_cases hPt : P ∈ t
        · rw [if_pos (hmem.mpr (Or.inr hPt)), if_pos hPt]
        · rw [if_neg (fun hc => (hmem.mp hc).elim
            (fun h => hEq h.symm) hPt), if_neg hPt]

theorem survivors_length_add (bad : List Nat) (hnd : bad.Nodup) :
    ∀ P, (survivors P bad).length +
      (bad.filter (fun v => decide (v < P))).length = P := by
  intro P
  induction P with
  | zero =>
    have hf : bad.filter (fun v => decide (v < 0)) = [] := by
      rw [List.filter_eq_nil_iff]
      intro a _
      simp
    rw [survivors_zero, hf]
    rfl
  | succ P ih =>
    rw [survivors_succ, List.length_append, filter_lt_succ_len P bad hnd]
    by_cases hP : P ∈ bad
    · rw [if_neg (not_not_intro hP), if_pos hP]
      simp only [List.length_nil]
      omega
    · rw [if_pos hP, if_neg hP]
      simp only [List.length_singleton]
      omega

theorem survivors_length_eq (P : Nat) (bad : List Nat) (hnd : bad.Nodup)
    (hb : ∀ v ∈ bad, v < P) :
    (survivors P bad).length = P - bad.length := by
  have h := survivors_length_add bad hnd P
  have hf : bad.filter (fun v => decide (v < P)) = bad := by
    rw [List.filter_eq_self]
    intro a ha
    exact decide_eq_true (hb a ha)
  rw [hf] at h
  omega

/-! ### Adjacency repair under removal -/

theorem removeTris_lengths (patches : List Patch) (adj : List ARow)
    (bad : List Nat) :
    (removeTris patches adj bad).1.length =
      (survivors patches.length bad).length ∧
    (removeTris patches adj bad).2.length =
      (survivors patches.length bad).length := by
  unfold removeTris
  constructor <;> simp

theorem adjAt_map_sentinel (adj : List ARow) (bad : List Nat) {v : Nat}
    (hv : v < adj.length) :
    adjAt (adj.map (tmap (sentinelOut bad))) v =
      tmap (sentinelOut bad) (adjAt adj v) := by
  unfold adjAt
  exact getD_map_lt _ _ _ (-1, -1, -1) hv

theorem removeTris_adjAt (patches : List Patch) (adj : List ARow)
    (bad : List Nat) (hlen : adj.length = patches.length) {i : Nat}
    (hi : i < (survivors patches.length bad).length) :
    adjAt (removeTris patches adj bad).2 i =
      tmap (fun n => remap bad (sentinelOut bad n))
        (adjAt adj ((survivors patches.length bad).getD i 0)) := by
  have hv : (survivors patches.length bad).getD i 0 < adj.length := by
    rw [hlen]
    exact (survivors_getD_mem patches.length bad hi).1
  show ((survivors patches.length bad).map
      (fun i0 => tmap (remap bad)
        (adjAt (adj.map (tmap (sentinelOut bad))) i0))).getD i
      (-1, -1, -1) = _
  rw [getD_map_lt _ _ _ 0 hi, adjAt_map_sentinel adj bad hv, tmap_tmap]

theorem removeTris_entry (patches : List Patch) (adj : List ARow)
    (bad : List Nat) (hlen : adj.length = patches.length)
    (hwf : ∀ i < patches.length, ∀ k : Fin 3,
      tget (adjAt adj i) k = -1 ∨
        (0 ≤ tget (adjAt adj i) k ∧
          (tget (adjAt adj i) k).toNat < patches.length))
    {i : Nat} (hi : i < (survivors patches.length bad).length) (k : Fin 3) :
    (tget (adjAt (removeTris patches adj bad).2 i) k = -1 ∧
      (tget (adjAt adj ((survivors patches.length bad).getD i 0)) k = -1 ∨
        (0 ≤ tget (adjAt adj ((survivors patches.length bad).getD i 0)) k ∧
          (tget (adjAt adj
            ((survivors patches.length bad).getD i 0)) k).toNat ∈ bad))) ∨
    (0 ≤ tget (adjAt adj ((survivors patches.length bad).getD i 0)) k ∧
      (tget (adjAt adj
        ((survivors patches.length bad).getD i 0)) k).toNat ∉ bad ∧
      (tget (adjAt adj
        ((survivors patches.length bad).getD i 0)) k).toNat <
          patches.length ∧
      tget (adjAt (removeTris patches adj bad).2 i) k =
        Int.ofNat (newIdx bad
          (tget (adjAt adj
            ((survivors patches.length bad).getD i 0)) k).toNat)) := by
  have hrow := removeTris_adjAt patches adj bad hlen hi
  rw [hrow, tget_tmap]
  obtain ⟨hvlt, hvnb⟩ := survivors_getD_mem patches.length bad hi
  rcases hwf ((survivors patches.length bad).getD i 0) hvlt k with
    hsent | ⟨h0, hlt⟩
  · left
    constructor
    · rw [hsent]
      rfl
    · exact Or.inl hsent
  · by_cases hbad :
      (tget (adjAt adj ((survivors patches.length bad).getD i 0)) k).toNat
        ∈ bad
    · left
      constructor
      · unfold sentinelOut
        rw [if_pos ⟨h0, hbad⟩]
        rfl
      · exact Or.inr ⟨h0, hbad⟩
    · right
      refine ⟨h0, hbad, hlt, ?_⟩
      unfold sentinelOut
      rw [if_neg (fun hc => hbad hc.2)]
      unfold remap
      rw [if_pos h0]

theorem removeTris_valid (patches : List Patch) (adj : List ARow)
    (bad : List Nat) (hlen : adj.length = patches.length)
    (hnd : bad.Nodup) (hb : ∀ v ∈ bad, v < patches.length)
    (hwf : ∀ i < patches.length, ∀ k : Fin 3,
      tget (adjAt adj i) k = -1 ∨
        (0 ≤ tget (adjAt adj i) k ∧
          (tget (adjAt adj i) k).toNat < patches.length))
    (hsym : ∀ i < patches.length, ∀ k : Fin 3, 0 ≤ tget (adjAt adj i) k →
      ∃ k2 : Fin 3, tget (adjAt adj (tget (adjAt adj i) k).toNat) k2 =
        Int.ofNat i) :
    (removeTris patches adj bad).1.length = patches.length - bad.length ∧
    (removeTris patches adj bad).2.length = patches.length - bad.length ∧
    (∀ i < (removeTris patches adj bad).1.length, ∀ k : Fin 3,
      tget (adjAt (removeTris patches adj bad).2 i) k = -1 ∨
        (0 ≤ tget (adjAt (removeTris patches adj bad).2 i) k ∧
          (tget (adjAt (removeTris patches adj bad).2 i) k).toNat <
            (removeTris patches adj bad).1.length)) ∧
    (∀ i < (removeTris patches adj bad).1.length, ∀ k : Fin 3,
      0 ≤ tget (adjAt (removeTris patches adj bad).2 i) k →
      ∃ k2 : Fin 3,
        tget (adjAt (removeTris patches adj bad).2
          (tget (adjAt (removeTris patches adj bad).2 i) k).toNat) k2 =
          Int.ofNat i) := by
  obtain ⟨hl1, hl2⟩ := removeTris_lengths patches adj bad
  have hslen := survivors_length_eq patches.length bad hnd hb
  refine ⟨by rw [hl1, hslen], by rw [hl2, hslen], ?_, ?_⟩
  · intro i hiP k
    rw [hl1] at hiP
    rcases removeTris_entry patches adj bad hlen hwf hiP k with
      ⟨hsent, _⟩ | ⟨h0, hnb, hlt, hval⟩
    · exact Or.inl hsent
    · right
      rw [hval, ofNat_cast]
      refine ⟨by omega, ?_⟩
      have hnew := (survivors_getD_newIdx bad patches.length _ hlt hnb).1
      rw [hl1]
      have htn : ((newIdx bad
          (tget (adjAt adj ((survivors patches.length bad).getD i 0))
            k).toNat : Int)).toNat =
          newIdx bad (tget (adjAt adj
            ((survivors patches.length bad).getD i 0)) k).toNat := by
        omega
      omega
  · intro i hiP k h0new
    rw [hl1] at hiP
    rcases removeTris_entry patches adj bad hlen hwf hiP k with
      ⟨hsent, _⟩ | ⟨h0, hnb, hlt, hval⟩
    · rw [hsent] at h0new
      exact absurd h0new (by decide)
    · obtain ⟨hvlt, hvnb⟩ := survivors_getD_mem patches.length bad hiP
      obtain ⟨hnlt, hneq⟩ :=
        survivors_getD_newIdx bad patches.length _ hlt hnb
      obtain ⟨k2, hk2⟩ := hsym ((survivors patches.length bad).getD i 0)
        hvlt k h0
      have htn : (tget (adjAt (removeTris patches adj bad).2 i) k).toNat =
          newIdx bad (tget (adjAt adj
            ((survivors patches.length bad).getD i 0)) k).toNat := by
        rw [hval, ofNat_cast]
        omega
      rcases removeTris_entry patches adj bad hlen hwf hnlt k2 with
        ⟨_, hold⟩ | ⟨h0b, hnbb, hltb, hvalb⟩
      · rw [hneq] at hold
        rcases hold with hc | ⟨_, hcbad⟩
        · rw [hk2] at hc
          exact absurd hc (by
            rw [ofNat_cast]
            omega)
        · rw [hk2, ofNat_cast] at hcbad
          have hvv : ((((survivors patches.length bad).getD i 0) : Int)
              ).toNat = (survivors patches.length bad).getD i 0 := by
            omega
          rw [hvv] at hcbad
          exact absurd hcbad hvnb
      · refine ⟨k2, ?_⟩
        rw [htn, hvalb, hneq, hk2, ofNat_cast, ofNat_cast]
        have hvv : ((((survivors patches.length bad).getD i 0) : Int)
            ).toNat = (survivors patches.length bad).getD i 0 := by
          omega
        rw [hvv, newIdx_survivors_getD bad patches.length i hiP]
        rfl

/-! ### The filtering stage -/

theorem badPatches_all (patches : List Patch) (thr : Int)
    (h : ∀ i < patches.length, thr < (ptp3 (patchAt patches i) : Int)) :
    badPatches patches thr = List.range patches.length := by
  unfold badPatches
  rw [List.filter_eq_self]
  intro a ha
  rw [List.mem_range] at ha
  exact decide_eq_true (h a ha)

theorem badPatches_neg (patches : List Patch) {thr : Int} (hthr : thr < 0) :
    badPatches patches thr = List.range patches.length :=
  badPatches_all patches thr (fun i _ => by
    have h0 : (0 : Int) ≤ (ptp3 (patchAt patches i) : Int) :=
      Int.ofNat_nonneg _
    omega)

theorem survivors_range (P : Nat) : survivors P (List.range P) = [] := by
  unfold survivors
  rw [List.filter_eq_nil_iff]
  intro a ha
  simp [ha]

theorem removeTris_range (patches : List Patch) (adj : List ARow) :
    removeTris patches adj (List.range patches.length) = ([], []) := by
  unfold removeTris
  rw [survivors_range]
  rfl

theorem filterStep_all_bad (patches : List Patch) (adj : List ARow)
    (thr : Int) (hne : patches ≠ [])
    (hall : badPatches patches thr = List.range patches.length) :
    filterStep patches adj (some thr) = ([], []) := by
  have hpos : 0 < (badPatches patches thr).length := by
    rw [hall, List.length_range]
    exact List.length_pos.mpr hne
  simp only [filterStep]
  rw [if_pos hpos, hall]
  exact removeTris_range patches adj

theorem filterStep_neg (patches : List Patch) (adj : List ARow) {thr : Int}
    (hlen : adj.length = patches.length) (hthr : thr < 0) :
    filterStep patches adj (some thr) = ([], []) := by
  rcases hp : patches with _ | ⟨p, ps⟩
  · have hadj : adj = [] := by
      rw [hp] at hlen
      exact List.length_eq_zero.mp hlen
    rw [hadj]
    rfl
  · rw [← hp]
    exact filterStep_all_bad patches adj thr (by rw [hp]; simp)
      (badPatches_neg patches hthr)

theorem ptp3_pos {p : Patch} (h : p.1 ≠ p.2.1) : 0 < ptp3 p := by
  unfold ptp3
  have h1 : min p.1 (min p.2.1 p.2.2) ≤ p.1 := Nat.min_le_left _ _
  have h2 : min p.1 (min p.2.1 p.2.2) ≤ p.2.1 :=
    Nat.le_trans (Nat.min_le_right _ _) (Nat.min_le_left _ _)
  have h3 : p.1 ≤ max p.1 (max p.2.1 p.2.2) := Nat.le_max_left _ _
  have h4 : p.2.1 ≤ max p.1 (max p.2.1 p.2.2) :=
    Nat.le_trans (Nat.le_max_left _ _) (Nat.le_max_right _ _)
  omega

theorem filterStep_zero_distinct (patches : List Patch) (adj : List ARow)
    (hlen : adj.length = patches.length)
    (hd : ∀ p ∈ patches, p.1 ≠ p.2.1) :
    filterStep patches adj (some 0) = ([], []) := by
  rcases hp : patches with _ | ⟨p, ps⟩
  · have hadj : adj = [] := by
      rw [hp] at hlen
      exact List.length_eq_zero.mp hlen
    rw [hadj]
    rfl
  · rw [← hp]
    apply filterStep_all_bad patches adj 0 (by rw [hp]; simp)
    apply badPatches_all
    intro i hi
    have hmem : patchAt patches i ∈ patches := by
      unfold patchAt
      rw [List.getD_eq_getElem _ _ hi]
      exact List.getElem_mem hi
    have hpos := ptp3_pos (hd _ hmem)
    omega

theorem voronoiPipeline_of_filter_empty (patches : List Patch)
    (adj : List ARow) (mns : Option Int)
    (hfs : filterStep patches adj mns = ([], [])) :
    voronoiPipeline patches adj mns = Except.ok ([], [], [], []) := by
  simp only [voronoiPipeline, hfs]
  rfl

/-! ### The claims -/

/-- C5: PatchFilter marks a patch as violating the spacing constraint if
and only if the spread (maximum minus minimum) of its three node index
values is strictly greater than `max_node_spacing`; the predicate is
evaluated on node indices, not on coordinate distances. -/
theorem claim_C5_spacing_predicate (patches : List Patch) (thr : Int)
    (i : Nat) :
    i ∈ badPatches patches thr ↔
      i < patches.length ∧
        thr < ((max (patchAt patches i).1
          (max (patchAt patches i).2.1 (patchAt patches i).2.2) -
          min (patchAt patches i).1
            (min (patchAt patches i).2.1 (patchAt patches i).2.2) :
          Nat) : Int) := by
  unfold badPatches
  rw [List.mem_filter, List.mem_range, decide_eq_true_eq]
  exact Iff.rfl

/-- C6 counterexample: the claim says a negative spacing threshold makes
the operation fail with a configuration error rather than filter; on a
concrete input with threshold `-1` the construction does not fail — it
filters every patch out and returns empty tables successfully. -/
theorem claim_C6_counterexample :
    voronoiPipeline [(0, 1, 2)] [(-1, -1, -1)] (some (-1)) =
      Except.ok ([], [], [], []) := by
  rfl

/-- C6 amended: the source performs no validation of the threshold; a
negative threshold raises no error — since the node-index spread is a
nonnegative integer, every patch exceeds a negative threshold, so
filtering removes all patches and the pipeline returns empty tables
without error. -/
theorem claim_C6_amended (patches : List Patch) (adj : List ARow)
    {thr : Int} (hlen : adj.length = patches.length) (hthr : thr < 0) :
    voronoiPipeline patches adj (some thr) = Except.ok ([], [], [], []) :=
  voronoiPipeline_of_filter_empty patches adj (some thr)
    (filterStep_neg patches adj hlen hthr)

/-- Witness for the amended C6 at a concrete input. -/
theorem claim_C6_amended_witness :
    ([(1, -1, -1), (-1, -1, 0)] : List ARow).length =
      ([(0, 1, 2), (2, 1, 3)] : List Patch).length ∧
    (-2 : Int) < 0 ∧
    voronoiPipeline [(0, 1, 2), (2, 1, 3)] [(1, -1, -1), (-1, -1, 0)]
      (some (-2)) = Except.ok ([], [], [], []) :=
  ⟨by decide, by decide,
    claim_C6_amended [(0, 1, 2), (2, 1, 3)] [(1, -1, -1), (-1, -1, 0)]
      (by decide) (by decide)⟩

/-- C8: PatchFilter leaves the tables unchanged both when no spacing
threshold is configured (filtering is skipped entirely) and when a
threshold is configured but no patch violates the predicate. -/
theorem claim_C8_filter_frame (patches : List Patch) (adj : List ARow) :
    filterStep patches adj none = (patches, adj) ∧
    ∀ thr : Int, badPatches patches thr = [] →
      filterStep patches adj (some thr) = (patches, adj) := by
  constructor
  · rfl
  · intro thr h
    simp [filterStep, h]

/-- Witness for C8 at a concrete input. -/
theorem claim_C8_witness :
    filterStep [(0, 1, 2), (2, 1, 3)] [(1, -1, -1), (-1, -1, 0)] none =
      ([(0, 1, 2), (2, 1, 3)], [(1, -1, -1), (-1, -1, 0)]) ∧
    badPatches [(0, 1, 2), (2, 1, 3)] 5 = [] ∧
    filterStep [(0, 1, 2), (2, 1, 3)] [(1, -1, -1), (-1, -1, 0)]
      (some 5) =
      ([(0, 1, 2), (2, 1, 3)], [(1, -1, -1), (-1, -1, 0)]) :=
  ⟨(claim_C8_filter_frame _ _).1, by decide,
    (claim_C8_filter_frame _ _).2 5 (by decide)⟩

/-- C9: with threshold 0 on a non-degenerate triangle set (three distinct
node indices per patch), all patches are removed and the pipeline
returns empty patch, adjacency and link tables without raising. -/
theorem claim_C9_threshold_zero (patches : List Patch) (adj : List ARow)
    (hlen : adj.length = patches.length)
    (hd : ∀ p ∈ patches,
      p.1 ≠ p.2.1 ∧ p.1 ≠ p.2.2 ∧ p.2.1 ≠ p.2.2) :
    voronoiPipeline patches adj (some 0) = Except.ok ([], [], [], []) :=
  voronoiPipeline_of_filter_empty patches adj (some 0)
    (filterStep_zero_distinct patches adj hlen (fun p hp => (hd p hp).1))

/-- Witness for C9 at a concrete input. -/
theorem claim_C9_witness :
    ([(1, -1, -1), (-1, -1, 0)] : List ARow).length =
      ([(0, 1, 2), (2, 1, 3)] : List Patch).length ∧
    voronoiPipeline [(0, 1, 2), (2, 1, 3)] [(1, -1, -1), (-1, -1, 0)]
      (some 0) = Except.ok ([], [], [], []) :=
  ⟨by decide,
    claim_C9_threshold_zero [(0, 1, 2), (2, 1, 3)]
      [(1, -1, -1), (-1, -1, 0)] (by decide) (by decide)⟩

/-- C10: when `xy_sort` or `rot_sort` is not supplied, the value `true`
is forwarded to the graph container; a supplied keyword overrides the
default with exactly the supplied value. -/
theorem claim_C10_sort_defaults :
    (∀ kwds : VoronoiKwds, kwds.xySort = none →
      (voronoiForward kwds).xySort = true) ∧
    (∀ kwds : VoronoiKwds, kwds.rotSort = none →
      (voronoiForward kwds).rotSort = true) ∧
    (∀ kwds : VoronoiKwds, ∀ b : Bool, kwds.xySort = some b →
      (voronoiForward kwds).xySort = b) ∧
    (∀ kwds : VoronoiKwds, ∀ b : Bool, kwds.rotSort = some b →
      (voronoiForward kwds).rotSort = b) :=
  ⟨fun kwds h => by simp [voronoiForward, h],
    fun kwds h => by simp [voronoiForward, h],
    fun kwds b h => by simp [voronoiForward, h],
    fun kwds b h => by simp [voronoiForward, h]⟩

/-- Witness for C10 at concrete keyword dictionaries. -/
theorem claim_C10_witness :
    (voronoiForward {}).xySort = true ∧
    (voronoiForward {}).rotSort = true ∧
    (voronoiForward
      { xySort := some false, rotSort := some false }).xySort = false ∧
    (voronoiForward
      { xySort := some false, rotSort := some false }).rotSort = false :=
  ⟨claim_C10_sort_defaults.1 {} rfl,
    claim_C10_sort_defaults.2.1 {} rfl,
    claim_C10_sort_defaults.2.2.1 _ false rfl,
    claim_C10_sort_defaults.2.2.2 _ false rfl⟩

/-- C1: for every patch table of `P` patches with a valid adjacency table
(parallel tables, in-range non-self entries, symmetric neighbor relation,
distinct entries per row), the number of links produced by the indexing
pass equals exactly `3 * P - shared_count / 2` (integer floor division),
where `shared_count` is the number of non-sentinel adjacency entries. -/
theorem claim_C1_link_count (patches : List Patch) (adj : List ARow)
    (hv : ValidAdj patches adj) :
    ∃ links lap, build patches adj = Except.ok (links, lap) ∧
      links.length = 3 * patches.length - nShared adj / 2 :=
  ⟨_, _, build_ok_of_valid patches adj hv,
    links_count_of_valid patches adj hv⟩

/-- Witness for C1: two adjacent triangles sharing one edge; five links. -/
theorem claim_C1_witness :
    ∃ links lap,
      build [(0, 1, 2), (2, 1, 3)] [(1, -1, -1), (-1, -1, 0)] =
        Except.ok (links, lap) ∧
      links.length =
        3 * ([(0, 1, 2), (2, 1, 3)] : List Patch).length -
          nShared [(1, -1, -1), (-1, -1, 0)] / 2 :=
  claim_C1_link_count [(0, 1, 2), (2, 1, 3)] [(1, -1, -1), (-1, -1, 0)]
    (by decide)

/-- C2: for adjacent patches `i < j` that list each other at slots `k`
and `k2` and whose opposite edges carry the same unordered vertex pair,
the produced `links_at_patch` rows record one common link id at those
slots, and that link's endpoints equal the shared vertices regardless of
which patch is inspected. -/
theorem claim_C2_shared_link (patches : List Patch) (adj : List ARow)
    (hv : ValidAdj patches adj) {i j : Nat} {k k2 : Fin 3}
    (hij : i < j) (hjP : j < patches.length)
    (hik : tget (adjAt adj i) k = Int.ofNat j)
    (hjk : tget (adjAt adj j) k2 = Int.ofNat i)
    (hshare : sameUnord (edgeOfSlot (patchAt patches i) k)
      (edgeOfSlot (patchAt patches j) k2)) :
    ∃ links lap L, build patches adj = Except.ok (links, lap) ∧
      tget (lap.getD i (0, 0, 0)) k = L ∧
      tget (lap.getD j (0, 0, 0)) k2 = L ∧
      sameUnord (links.getD L (0, 0))
        (edgeOfSlot (patchAt patches i) k) ∧
      sameUnord (links.getD L (0, 0))
        (edgeOfSlot (patchAt patches j) k2) := by
  obtain ⟨h1, h2, h3⟩ :=
    shared_link_of_adjacent patches adj hv hij hjP hik hjk
  refine ⟨_, _, allocCount adj i + primOff adj i k,
    build_ok_of_valid patches adj hv, h1, h2, ?_, ?_⟩
  · rw [h3]
    exact Or.inl rfl
  · rw [h3]
    exact hshare

/-- Witness for C2: the edge shared by the two triangles of the running
example resolves to one link id seen from both sides. -/
theorem claim_C2_witness :
    ∃ links lap L,
      build [(0, 1, 2), (2, 1, 3)] [(1, -1, -1), (-1, -1, 0)] =
        Except.ok (links, lap) ∧
      tget (lap.getD 0 (0, 0, 0)) 0 = L ∧
      tget (lap.getD 1 (0, 0, 0)) 2 = L ∧
      sameUnord (links.getD L (0, 0))
        (edgeOfSlot (patchAt [(0, 1, 2), (2, 1, 3)] 0) 0) ∧
      sameUnord (links.getD L (0, 0))
        (edgeOfSlot (patchAt [(0, 1, 2), (2, 1, 3)] 1) 2) :=
  claim_C2_shared_link [(0, 1, 2), (2, 1, 3)] [(1, -1, -1), (-1, -1, 0)]
    (by decide) (by decide) (by decide) (by decide) (by decide) (by decide)

/-- C3: for a valid input whose patches have distinct vertices and where
any two patches sharing an unordered edge are adjacency-linked at the
corresponding slots, no two rows of the produced link table reference the
same unordered node pair. -/
theorem claim_C3_no_duplicate_links (patches : List Patch)
    (adj : List ARow) (hv : ValidAdj patches adj)
    (hvert : ∀ i < patches.length,
      (patchAt patches i).1 ≠ (patchAt patches i).2.1 ∧
      (patchAt patches i).1 ≠ (patchAt patches i).2.2 ∧
      (patchAt patches i).2.1 ≠ (patchAt patches i).2.2)
    (hedge : ∀ i < patches.length, ∀ j < patches.length, i ≠ j →
      ∀ k k2 : Fin 3,
        sameUnord (edgeOfSlot (patchAt patches i) k)
          (edgeOfSlot (patchAt patches j) k2) →
        tget (adjAt adj i) k = Int.ofNat j) :
    ∃ links lap, build patches adj = Except.ok (links, lap) ∧
      ∀ L1 L2 : Nat, L1 < links.length → L2 < links.length → L1 ≠ L2 →
        ¬ sameUnord (links.getD L1 (0, 0)) (links.getD L2 (0, 0)) := by
  obtain ⟨hpw, _⟩ :=
    links_pairwise patches adj hvert hedge patches.length (Nat.le_refl _)
  exact ⟨_, _, build_ok_of_valid patches adj hv,
    fun L1 L2 h1 h2 hne => pairwise_getD _ hpw h1 h2 hne⟩

/-- Witness for C3 at the two-triangle example. -/
theorem claim_C3_witness :
    ∃ links lap,
      build [(0, 1, 2), (2, 1, 3)] [(1, -1, -1), (-1, -1, 0)] =
        Except.ok (links, lap) ∧
      ∀ L1 L2 : Nat, L1 < links.length → L2 < links.length → L1 ≠ L2 →
        ¬ sameUnord (links.getD L1 (0, 0)) (links.getD L2 (0, 0)) :=
  claim_C3_no_duplicate_links [(0, 1, 2), (2, 1, 3)]
    [(1, -1, -1), (-1, -1, 0)] (by decide) (by decide) (by decide)

/-- C4: after removal of the listed patches and compaction, both tables
have size `P - |violations|`, every adjacency entry is either the
sentinel or a valid index into the compacted patch table, and the
symmetric-neighbor invariant still holds. -/
theorem claim_C4_filter_invariants (patches : List Patch)
    (adj : List ARow) (bad : List Nat)
    (hlen : adj.length = patches.length)
    (hnd : bad.Nodup) (hb : ∀ v ∈ bad, v < patches.length)
    (hwf : ∀ i < patches.length, ∀ k : Fin 3,
      tget (adjAt adj i) k = -1 ∨
        (0 ≤ tget (adjAt adj i) k ∧
          (tget (adjAt adj i) k).toNat < patches.length))
    (hsym : ∀ i < patches.length, ∀ k : Fin 3, 0 ≤ tget (adjAt adj i) k →
      ∃ k2 : Fin 3, tget (adjAt adj (tget (adjAt adj i) k).toNat) k2 =
        Int.ofNat i) :
    (removeTris patches adj bad).1.length =
      patches.length - bad.length ∧
    (removeTris patches adj bad).2.length =
      patches.length - bad.length ∧
    (∀ i < (removeTris patches adj bad).1.length, ∀ k : Fin 3,
      tget (adjAt (removeTris patches adj bad).2 i) k = -1 ∨
        (0 ≤ tget (adjAt (removeTris patches adj bad).2 i) k ∧
          (tget (adjAt (removeTris patches adj bad).2 i) k).toNat <
            (removeTris patches adj bad).1.length)) ∧
    (∀ i < (removeTris patches adj bad).1.length, ∀ k : Fin 3,
      0 ≤ tget (adjAt (removeTris patches adj bad).2 i) k →
      ∃ k2 : Fin 3,
        tget (adjAt (removeTris patches adj bad).2
          (tget (adjAt (removeTris patches adj bad).2 i) k).toNat) k2 =
          Int.ofNat i) :=
  removeTris_valid patches adj bad hlen hnd hb hwf hsym

/-- Witness for C4: removing the second of the two triangles. -/
theorem claim_C4_witness :
    (removeTris [(0, 1, 2), (2, 1, 3)] [(1, -1, -1), (-1, -1, 0)]
      [1]).1.length = ([(0, 1, 2), (2, 1, 3)] : List Patch).length - 1 ∧
    (removeTris [(0, 1, 2), (2, 1, 3)] [(1, -1, -1), (-1, -1, 0)]
      [1]).2.length = ([(0, 1, 2), (2, 1, 3)] : List Patch).length - 1 ∧
    (∀ i < (removeTris [(0, 1, 2), (2, 1, 3)]
        [(1, -1, -1), (-1, -1, 0)] [1]).1.length, ∀ k : Fin 3,
      tget (adjAt (removeTris [(0, 1, 2), (2, 1, 3)]
        [(1, -1, -1), (-1, -1, 0)] [1]).2 i) k = -1 ∨
        (0 ≤ tget (adjAt (removeTris [(0, 1, 2), (2, 1, 3)]
          [(1, -1, -1), (-1, -1, 0)] [1]).2 i) k ∧
          (tget (adjAt (removeTris [(0, 1, 2), (2, 1, 3)]
            [(1, -1, -1), (-1, -1, 0)] [1]).2 i) k).toNat <
            (removeTris [(0, 1, 2), (2, 1, 3)]
              [(1, -1, -1), (-1, -1, 0)] [1]).1.length)) ∧
    (∀ i < (removeTris [(0, 1, 2), (2, 1, 3)]
        [(1, -1, -1), (-1, -1, 0)] [1]).1.length, ∀ k : Fin 3,
      0 ≤ tget (adjAt (removeTris [(0, 1, 2), (2, 1, 3)]
        [(1, -1, -1), (-1, -1, 0)] [1]).2 i) k →
      ∃ k2 : Fin 3,
        tget (adjAt (removeTris [(0, 1, 2), (2, 1, 3)]
          [(1, -1, -1), (-1, -1, 0)] [1]).2
          (tget (adjAt (removeTris [(0, 1, 2), (2, 1, 3)]
            [(1, -1, -1), (-1, -1, 0)] [1]).2 i) k).toNat) k2 =
          Int.ofNat i) :=
  claim_C4_filter_invariants [(0, 1, 2), (2, 1, 3)]
    [(1, -1, -1), (-1, -1, 0)] [1] (by decide) (by decide) (by decide)
    (by decide) (by decide)

/-- C7: if the precomputed link count `3P - shared / 2` and the number of
links actually assigned by the indexing pass diverge (as happens when the
symmetric-neighbor invariant is violated), the pass fails with an
inconsistency error and does not silently truncate or pad. -/
theorem claim_C7_count_mismatch_error (patches : List Patch)
    (adj : List ARow)
    (hdiv : (buildAux patches adj patches.length).links.length ≠
      nLinksPre patches adj) :
    build patches adj = Except.error BuildError.inconsistentAdjacency := by
  simp only [build]
  rw [if_neg hdiv]

/-- Witness for C7: patch 1 claims patch 0 as neighbor without
reciprocation; 5 links are assigned but 6 were precomputed. -/
theorem claim_C7_witness :
    (buildAux [(0, 1, 2), (0, 1, 3)] [(-1, -1, -1), (0, -1, -1)]
      ([(0, 1, 2), (0, 1, 3)] : List Patch).length).links.length ≠
      nLinksPre [(0, 1, 2), (0, 1, 3)] [(-1, -1, -1), (0, -1, -1)] ∧
    build [(0, 1, 2), (0, 1, 3)] [(-1, -1, -1), (0, -1, -1)] =
      Except.error BuildError.inconsistentAdjacency :=
  ⟨by decide,
    claim_C7_count_mismatch_error [(0, 1, 2), (0, 1, 3)]
      [(-1, -1, -1), (0, -1, -1)] (by decide)⟩

end Voronoi
